import Mathlib

/-!
Verification of the simd-x adaptive BFS engine specification against the
repository sources.

The repository ships two headers: `src/lib/util.h` (the error handler
`HandleError`/`H_ERR` and the execution-configuration macros `SML_MID`,
`MID_LRG`, `SWITCH_TO`, `SWITCH_BACK`, `GPUID`, `THDS_NUM`, `BLKS_NUM`) and
`src/test/optimal/bfs_high_diameter/header.h` (the scalar typedefs, `INFTY`,
a redefinition of `BLKS_NUM`, and `BIN_SZ`).  Those headers are embedded
directly below.  The traversal engine itself (frontier store, steppers,
strategy selector, binning, driver) is not part of the visible sources, so it
is modelled from the specification; each such definition carries a doc
comment starting with `Modelled from the spec:`.

Machine floats (`(float)0.2`, `(float)0.4`) are modelled as the exact
rationals written in the source text; every fact proved about them is an
ordering or equality that is insensitive to the float rounding of these
literals.
-/

/-! ## Execution configuration constants, from src/lib/util.h -/

/-- `#define SML_MID 32` (util.h line 19): small/medium frontier-size breakpoint. -/
def SML_MID : ℕ := 32

/-- `#define MID_LRG 1024` (util.h line 20): medium/large frontier-size breakpoint. -/
def MID_LRG : ℕ := 1024

/-- `#define SWITCH_TO (float)0.2` (util.h line 22), modelled as the exact rational. -/
def SWITCH_TO : ℚ := 2/10

/-- `#define SWITCH_BACK (float)0.4` (util.h line 23), modelled as the exact rational. -/
def SWITCH_BACK : ℚ := 4/10

/-- `#ifndef GPUID / #define GPUID 0` (util.h): default device id. -/
def GPUID : ℕ := 0

/-- `#ifndef THDS_NUM / #define THDS_NUM 512` (util.h): default threads per block. -/
def THDS_NUM : ℕ := 512

/-- util.h lines 39-42: `#ifndef BLKS_NUM #define BLKS_NUM 512 #endif`.
The argument is the compile-time override (a prior `-DBLKS_NUM=n`
definition), `none` when no definition is supplied. -/
def blksNum_util (override : Option ℕ) : ℕ :=
  match override with
  | none => 512
  | some n => n

/-- The shipped default of `BLKS_NUM` in util.h: no override supplied. -/
def BLKS_NUM : ℕ := blksNum_util none

/-! ## Types and constants from src/test/optimal/bfs_high_diameter/header.h -/

/-- header.h lines 10-15:
`#ifndef BLKS_NUM #define BLKS_NUM 256 #else #undef BLKS_NUM #define BLKS_NUM 256 #endif`.
Whether or not a prior definition exists, the macro is (re)defined to 256 in
this translation unit. -/
def blksNum_header (prior : Option ℕ) : ℕ :=
  match prior with
  | none => 256
  | some _ => 256

/-- `#define BIN_SZ 8192` (header.h line 17): work-bin size. -/
def BIN_SZ : ℕ := 8192

/-- `#define INFTY (int)-1` (header.h line 9): the "unvisited" sentinel level. -/
def INFTY : ℤ := -1

/-- `typedef int index_t` (header.h line 3): a 32-bit signed integer on the
target platform (the CUDA ABI fixes `int` at 32 bits).  `index_t_repr n`
states that the integer `n` is representable in `index_t`. -/
def index_t_repr (n : ℤ) : Prop := -(2^31) ≤ n ∧ n ≤ 2^31 - 1

/-- `typedef unsigned int vertex_t` (header.h line 4): 32-bit unsigned.
`vertex_t_repr n` states that `n` is representable in `vertex_t`. -/
def vertex_t_repr (n : ℕ) : Prop := n ≤ 2^32 - 1

/-- `typedef int feature_t` (header.h line 5): same 32-bit signed range as
`index_t`; levels are stored in `feature_t` values. -/
def feature_t_repr (n : ℤ) : Prop := index_t_repr n

/-! ## The error handler, from src/lib/util.h lines 5-16 -/

/-- `cudaSuccess` is error code 0 in the CUDA runtime. -/
def cudaSuccess : ℕ := 0

/-- `EXIT_FAILURE` is 1 on the target platform (ISO C requires it nonzero). -/
def EXIT_FAILURE : ℕ := 1

/-- Observable outcome of one `HandleError` call: the diagnostic messages it
printed, and `some code` when it called `exit code` (`none`: returned
normally). -/
structure HandlerOutcome where
  messages : List String
  exitCode : Option ℕ
deriving DecidableEq

/-- Shallow embedding of `HandleError` (util.h lines 5-14).  The external
`cudaGetErrorString` is passed in as `getErrStr`; `err` is the `cudaError_t`
value.  The C code prints `"%s in %s at line %d\n"` and calls
`exit(EXIT_FAILURE)` when `err != cudaSuccess`, otherwise it just returns.
The `H_ERR` macro merely supplies `__FILE__`/`__LINE__` as `file`/`line`. -/
def HandleError (getErrStr : ℕ → String) (err : ℕ) (file : String) (line : ℕ) :
    HandlerOutcome :=
  if err ≠ cudaSuccess then
    ⟨[getErrStr err ++ " in " ++ file ++ " at line " ++ toString line ++ "\n"],
     some EXIT_FAILURE⟩
  else ⟨[], none⟩

/-! ## CSR graphs (spec section 3, data model) -/

/-- A CSR adjacency: vertex count, an offsets array of length `V+1`, and the
flat neighbor-id sequence (spec section 3, "Graph"). -/
structure CSR where
  V : ℕ
  offsets : List ℕ
  neighbors : List ℕ
deriving DecidableEq

/-- The out-neighbor segment of vertex `u`: `neighbors[offsets[u] .. offsets[u+1])`. -/
def outNeighbors (g : CSR) (u : ℕ) : List ℕ :=
  (g.neighbors.drop (g.offsets.getD u 0)).take (g.offsets.getD (u+1) 0 - g.offsets.getD u 0)

/-- Boolean adjacency test derived from the CSR: `v` is an out-neighbor of `u`. -/
def adjB (g : CSR) (u v : ℕ) : Bool := decide (v ∈ outNeighbors g u)

/-- Structural non-decreasing test on a list (kernel-computable). -/
def nondecB : List ℕ → Bool
  | [] => true
  | [_] => true
  | a :: b :: t => decide (a ≤ b) && nondecB (b :: t)

/-- CSR well-formedness (spec section 3 invariant): offsets has length `V+1`,
is non-decreasing, ends at `E = neighbors.length`, and every neighbor id is a
valid vertex. -/
def CSRwf (g : CSR) : Prop :=
  g.offsets.length = g.V + 1 ∧
  nondecB g.offsets = true ∧
  g.offsets.getD g.V 0 = g.neighbors.length ∧
  ∀ x ∈ g.neighbors, x < g.V

instance (g : CSR) : Decidable (CSRwf g) := by
  unfold CSRwf; infer_instance

/-! ## The execution configuration as a record (spec sections 3 and 6) -/

/-- The process-wide execution configuration (spec section 3, "Execution
parameters"): set once before traversal, never mutated during a run. -/
structure Config where
  gpuId : ℕ
  thdsNum : ℕ
  blksNum : ℕ
  smlMid : ℕ
  midLrg : ℕ
  switchTo : ℚ
  switchBack : ℚ
  binSz : ℕ
deriving DecidableEq

/-- The shipped configuration: the constants of util.h and header.h. -/
def shippedConfig : Config :=
  ⟨GPUID, THDS_NUM, BLKS_NUM, SML_MID, MID_LRG, SWITCH_TO, SWITCH_BACK, BIN_SZ⟩

/-! ## The strategy selector (spec section 4.5), modelled from the spec -/

/-- The two traversal strategies of the selector state machine. -/
inductive Strategy where
  | TOP_DOWN : Strategy
  | BOTTOM_UP : Strategy
deriving DecidableEq

/-- Modelled from the spec: the Strategy Selector step (spec section 4.5) is
missing from src/.  From `TOP_DOWN`, switch to `BOTTOM_UP` when the frontier
size `F ≥ SML_MID` and the edge-exposure ratio `r ≥ SWITCH_TO`; from
`BOTTOM_UP`, switch back when `F < MID_LRG` and `r < SWITCH_BACK`; otherwise
remain in the current state. -/
def selectStrategy (c : Config) (cur : Strategy) (F : ℕ) (r : ℚ) : Strategy :=
  match cur with
  | .TOP_DOWN => if c.smlMid ≤ F ∧ c.switchTo ≤ r then .BOTTOM_UP else .TOP_DOWN
  | .BOTTOM_UP => if F < c.midLrg ∧ r < c.switchBack then .TOP_DOWN else .BOTTOM_UP

/-- The number of strategy switches the selector performs along a trace of
per-level inputs (frontier size, edge-exposure ratio), starting from a given
state. -/
def switchCount (c : Config) : Strategy → List (ℕ × ℚ) → ℕ
  | _, [] => 0
  | s, i :: rest =>
    (if selectStrategy c s i.1 i.2 = s then 0 else 1) +
    switchCount c (selectStrategy c s i.1 i.2) rest

/-- The number of consecutive-level pairs at which the edge-exposure ratio
crosses the hysteresis band `[SWITCH_TO, SWITCH_BACK)`: it jumps from below
`SWITCH_TO` to at least `SWITCH_BACK` or vice versa. -/
def bandCrossCount (c : Config) : List ℚ → ℕ
  | r1 :: r2 :: rest =>
    (if (r1 < c.switchTo ∧ c.switchBack ≤ r2) ∨ (c.switchBack ≤ r1 ∧ r2 < c.switchTo)
     then 1 else 0) + bandCrossCount c (r2 :: rest)
  | _ => 0

/-! ## Binning load balancer (spec section 4.2), modelled from the spec -/

/-- Running prefix sums of a list of degrees, starting from `acc`. -/
def psums : List ℕ → ℕ → List ℕ
  | [], _ => []
  | d :: rest, acc => (acc + d) :: psums rest (acc + d)

/-- The out-degrees of the frontier members. -/
def degreeList (g : CSR) (F : List ℕ) : List ℕ :=
  F.map (fun u => (outNeighbors g u).length)

/-- Modelled from the spec: the Binning / Load Balancer (spec section 4.2) is
missing from src/.  Bin boundaries are assigned at multiples of `BIN_SZ` in
degree-prefix-sum space, i.e. the work item at prefix-sum position `p` lands
in bin `p / binSz`; when `binSz = 0` binning is skipped and each vertex is one
unit of work (the degraded branch, flagged `true` in the second component). -/
def assignBins (c : Config) (g : CSR) (F : List ℕ) : List ℕ × Bool :=
  if c.binSz = 0 then (List.range F.length, true)
  else ((psums (degreeList g F) 0).map (fun p => p / c.binSz), false)

/-! ## Startup configuration validation (spec section 7a), modelled from the spec -/

/-- Modelled from the spec: startup configuration validation (spec section
7a) is missing from src/.  A configuration is consistent when
`switchTo < switchBack` and `binSz ≠ 0`. -/
def validateConfig (c : Config) : Bool :=
  decide (c.switchTo < c.switchBack) && decide (c.binSz ≠ 0)

/-! ## The traversal engine (spec sections 2, 4.1, 4.3, 4.4), modelled from the spec -/

/-- Sequentialization of the atomic claim race: walk the candidate list, and
claim each candidate still carrying the `INFTY` sentinel by writing `lvl`
into the level array and appending it to the next frontier; a candidate
already claimed is discarded (the loser of the race does nothing). -/
def claimList (lvl : ℤ) : List ℕ → List ℤ → List ℕ → List ℤ × List ℕ
  | [], L, nf => (L, nf)
  | v :: rest, L, nf =>
    if L.getD v 0 = INFTY then claimList lvl rest (L.set v lvl) (nf ++ [v])
    else claimList lvl rest L nf

/-- Modelled from the spec: the Top-Down Stepper (spec section 4.3) is
missing from src/.  For every frontier vertex, for every out-neighbor,
attempt to claim the neighbor at level `lvl`; successfully claimed neighbors
become the next frontier. -/
def topDownStep (gout : CSR) (lvl : ℤ) (L : List ℤ) (F : List ℕ) :
    List ℤ × List ℕ :=
  claimList lvl (F.flatMap (outNeighbors gout)) L []

/-- Scan of the bottom-up stepper: for each vertex `v` of `vs` that is
unvisited in the snapshot `L0` and has an in-neighbor in the current frontier
`F`, claim `v` at level `lvl`.  `gin` is the in-edge CSR, so `outNeighbors
gin v` are the in-neighbors of `v`. -/
def buScan (gin : CSR) (lvl : ℤ) (L0 : List ℤ) (F : List ℕ) :
    List ℕ → List ℤ × List ℕ → List ℤ × List ℕ
  | [], p => p
  | v :: rest, p =>
    if L0.getD v 0 = INFTY ∧ (outNeighbors gin v).any (fun u => decide (u ∈ F)) then
      buScan gin lvl L0 F rest (p.1.set v lvl, p.2 ++ [v])
    else buScan gin lvl L0 F rest p

/-- Modelled from the spec: the Bottom-Up Stepper (spec section 4.4) is
missing from src/.  For every currently unvisited vertex, scan its
in-neighbors for a member of the current frontier; if one is found, claim the
vertex and add it to the next frontier. -/
def bottomUpStep (gin : CSR) (lvl : ℤ) (L : List ℤ) (F : List ℕ) :
    List ℤ × List ℕ :=
  buScan gin lvl L F (List.range gin.V) (L, [])

/-- The per-level state of the engine: the level array, the current frontier,
and the selector state. -/
structure BfsState where
  level : List ℤ
  frontier : List ℕ
  dir : Strategy
deriving DecidableEq

/-- The edge-exposure ratio fed to the selector: the level's discovered
out-degree-sum `D` over the total edge count `E` (0 when `E = 0`). -/
def ratioDE (D E : ℕ) : ℚ := if E = 0 then 0 else (D : ℚ) / (E : ℚ)

/-- The discovered out-degree-sum of the current frontier. -/
def degreeSum (g : CSR) (F : List ℕ) : ℕ := (degreeList g F).sum

/-- Modelled from the spec: one BFS level of the engine (spec section 2,
control flow), missing from src/.  The chooser (the Strategy Selector, or a
forced strategy) is consulted with the frontier size and edge-exposure
ratio; the chosen stepper consumes the frontier and produces the next level
array and frontier.  `k` is the current level number. -/
def levelStep (ch : Strategy → ℕ → ℚ → Strategy) (gout gin : CSR) (k : ℕ)
    (st : BfsState) : BfsState :=
  match ch st.dir st.frontier.length
      (ratioDE (degreeSum gout st.frontier) gout.neighbors.length) with
  | .TOP_DOWN =>
    let p := topDownStep gout ((k : ℤ) + 1) st.level st.frontier
    ⟨p.1, p.2, .TOP_DOWN⟩
  | .BOTTOM_UP =>
    let p := bottomUpStep gin ((k : ℤ) + 1) st.level st.frontier
    ⟨p.1, p.2, .BOTTOM_UP⟩

/-- Modelled from the spec: the engine driver loop (spec section 2), missing
from src/.  Initialization (spec section 4.1 `create`): every level is the
`INFTY` sentinel except `level[src] = 0`, the frontier is `{src}`, and the
initial selector state is `TOP_DOWN`.  `engineRun ch gout gin src k` is the
state after processing levels `0, ..., k-1`.  Stepping an empty frontier is a
no-op on the level array, so iterating a fixed fuel computes the fixed point
of the spec's until-empty loop. -/
def engineRun (ch : Strategy → ℕ → ℚ → Strategy) (gout gin : CSR) (src : ℕ) :
    ℕ → BfsState
  | 0 => ⟨(List.replicate gout.V INFTY).set src 0, [src], .TOP_DOWN⟩
  | k + 1 => levelStep ch gout gin k (engineRun ch gout gin src k)

/-- The adaptive traversal: the engine driven by the Strategy Selector under
the shipped configuration, run for `V` levels (enough to reach every
reachable vertex). -/
def adaptiveBFS (gout gin : CSR) (src : ℕ) : List ℤ :=
  (engineRun (selectStrategy shippedConfig) gout gin src gout.V).level

/-- The reference serial BFS: the same level-synchronous traversal with the
strategy forced to `TOP_DOWN` at every level (the classic serial queue BFS,
one level at a time). -/
def serialBFS (gout gin : CSR) (src : ℕ) : List ℤ :=
  (engineRun (fun _ _ _ => .TOP_DOWN) gout gin src gout.V).level

/-- Modelled from the spec: the top-level driver (spec sections 2 and 7a),
missing from src/.  The configuration is validated at startup; an
inconsistent configuration is a fatal, reported error and no traversal level
executes; otherwise the adaptive traversal runs and its level array is
returned. -/
def runEngine (c : Config) (gout gin : CSR) (src : ℕ) : Except String (List ℤ) :=
  if validateConfig c then
    Except.ok ((engineRun (selectStrategy c) gout gin src gout.V).level)
  else Except.error ("configuration error")

/-! ## Reachability and shortest distances (spec sections 3 and 8) -/

/-- `ReachN gout src d v`: there is a directed walk of length exactly `d`
from `src` to `v` in the out-CSR. -/
inductive ReachN (g : CSR) (s : ℕ) : ℕ → ℕ → Prop where
  | zero : ReachN g s 0 s
  | succ {k u v : ℕ} : ReachN g s k u → adjB g u v = true → ReachN g s (k + 1) v

/-- `v` is reachable from `src` within `k` steps. -/
def reachIn (g : CSR) (s : ℕ) (k v : ℕ) : Prop := ∃ d ≤ k, ReachN g s d v

/-- `d` is the length of the shortest path (in edge count) from `src` to `v`. -/
def ShortestD (g : CSR) (s v d : ℕ) : Prop :=
  ReachN g s d v ∧ ∀ e < d, ¬ ReachN g s e v

/-- One saturation step of the reachable-set computation: add every
out-neighbor of the current set. -/
def stepSet (g : CSR) (X : Finset ℕ) : Finset ℕ :=
  X ∪ X.biUnion (fun u => (outNeighbors g u).toFinset)

/-- The set of vertices reachable from `s` within `k` steps, computed by
saturation. -/
def iterSet (g : CSR) (s : ℕ) : ℕ → Finset ℕ
  | 0 => {s}
  | k + 1 => stepSet g (iterSet g s k)

/-- A two-vertex, one-edge out-CSR (`0 → 1`), used as a concrete instance. -/
def pathOut2 : CSR := ⟨2, [0, 1, 1], [1]⟩

/-- The in-CSR of `pathOut2` (the reversed edge). -/
def pathIn2 : CSR := ⟨2, [0, 0, 1], [0]⟩

/-! ## Claim C3: threshold ordering -/

/-- Claim C3: the configured edge-exposure-ratio thresholds satisfy
`SWITCH_TO < SWITCH_BACK` and each is strictly below 1.0 (with the shipped
values, 0.2 < 0.4 < 1.0), and the frontier-size breakpoints satisfy
`SML_MID < MID_LRG` (32 < 1024). -/
theorem thresholds_ordered :
    SWITCH_TO < SWITCH_BACK ∧ SWITCH_TO < 1 ∧ SWITCH_BACK < 1 ∧
    SML_MID < MID_LRG ∧ SWITCH_TO = (0.2 : ℚ) ∧ SWITCH_BACK = (0.4 : ℚ) ∧
    SML_MID = 32 ∧ MID_LRG = 1024 := by
  refine ⟨by norm_num [SWITCH_TO, SWITCH_BACK], by norm_num [SWITCH_TO],
    by norm_num [SWITCH_BACK], by norm_num [SML_MID, MID_LRG],
    by norm_num [SWITCH_TO], by norm_num [SWITCH_BACK], rfl, rfl⟩

/-! ## Claim C4: the error handler -/

/-- Claim C4: `HandleError` terminates the process with a non-zero exit
status if and only if `err` is not `cudaSuccess`; before terminating it emits
exactly one diagnostic message containing the error description, the source
file and the line number; on `cudaSuccess` it returns normally with no output
and no other effect (one evaluation, no retry). -/
theorem HandleError_fatal_iff (getErrStr : ℕ → String) (err : ℕ)
    (file : String) (line : ℕ) :
    ((∃ c, (HandleError getErrStr err file line).exitCode = some c ∧ c ≠ 0) ↔
        err ≠ cudaSuccess) ∧
    (err ≠ cudaSuccess →
      (HandleError getErrStr err file line).messages =
        [getErrStr err ++ " in " ++ file ++ " at line " ++ toString line ++ "\n"]) ∧
    (err = cudaSuccess → HandleError getErrStr err file line = ⟨[], none⟩) := by
  by_cases h : err = cudaSuccess
  · refine ⟨?_, fun hc => absurd h hc, fun _ => by simp [HandleError, h]⟩
    simp [HandleError, h]
  · refine ⟨?_, fun _ => by simp [HandleError, h], fun hc => absurd hc h⟩
    constructor
    · intro _; exact h
    · intro _
      exact ⟨EXIT_FAILURE, by simp [HandleError, h], by simp [EXIT_FAILURE]⟩

/-- Witness for C4: a concrete failing call exits with status 1 and prints the
formatted diagnostic; a concrete succeeding call is a no-op. -/
theorem HandleError_fatal_iff_w :
    (HandleError (fun _ => "unknown error") 1 "kernel.cu" 42).messages =
      ["unknown error in kernel.cu at line 42\n"] ∧
    HandleError (fun _ => "unknown error") 0 "kernel.cu" 42 = ⟨[], none⟩ :=
  ⟨(HandleError_fatal_iff (fun _ => "unknown error") 1 "kernel.cu" 42).2.1
      (by decide),
   (HandleError_fatal_iff (fun _ => "unknown error") 0 "kernel.cu" 42).2.2 rfl⟩

/-! ## Claim C5: shipped defaults -/

/-- Claim C5: the shipped defaults equal the spec's configuration-surface
defaults: `GPUID = 0`, `THDS_NUM = 512`, `BLKS_NUM = 512` (util.h default,
no override), `SML_MID = 32`, `MID_LRG = 1024`, `SWITCH_TO = 0.2`,
`SWITCH_BACK = 0.4`, `BIN_SZ = 8192`. -/
theorem shipped_defaults :
    GPUID = 0 ∧ THDS_NUM = 512 ∧ BLKS_NUM = 512 ∧ blksNum_util none = 512 ∧
    SML_MID = 32 ∧ MID_LRG = 1024 ∧ SWITCH_TO = (0.2 : ℚ) ∧
    SWITCH_BACK = (0.4 : ℚ) ∧ BIN_SZ = 8192 := by
  refine ⟨rfl, rfl, rfl, rfl, rfl, rfl, by norm_num [SWITCH_TO],
    by norm_num [SWITCH_BACK], rfl⟩

/-! ## Claim C6: BLKS_NUM override semantics -/

/-- Counterexample for C6: in the bfs_high_diameter test header's translation
unit, a compile-time override `-DBLKS_NUM=96` does not take effect — the
header unconditionally (re)defines `BLKS_NUM` to 256 — and even without an
override the value there is 256, not 512. -/
theorem blksNum_header_ignores_override :
    blksNum_header (some 96) = 256 ∧ blksNum_header (some 96) ≠ 96 ∧
    blksNum_header none ≠ 512 := by decide

/-- Claim C6 (amended): `BLKS_NUM` is compile-time configurable in
translation units governed by util.h alone — default 512 with no definition,
and an override takes effect there — but the bfs_high_diameter test header
unconditionally redefines `BLKS_NUM` to 256, so neither the 512 default nor
any override takes effect in that translation unit. -/
theorem blksNum_override_scope :
    blksNum_util none = 512 ∧ (∀ n : ℕ, blksNum_util (some n) = n) ∧
    (∀ prior : Option ℕ, blksNum_header prior = 256) := by
  refine ⟨rfl, fun n => rfl, fun prior => ?_⟩
  cases prior <;> rfl

/-! ## Claim C10: scalar type ranges -/

/-- Claim C10: `index_t` is 32-bit signed and `vertex_t` 32-bit unsigned, so
a nonnegative edge count `E` is representable as an `index_t` (as required by
the invariant `offsets[V] == E`) exactly when `E ≤ 2^31 - 1`, and `feature_t`
(levels) occupies the same 32-bit signed range as `index_t`. -/
theorem scalar_type_ranges :
    (∀ E : ℕ, index_t_repr (E : ℤ) ↔ E ≤ 2^31 - 1) ∧
    (∀ n : ℤ, feature_t_repr n ↔ index_t_repr n) ∧
    (∀ n : ℕ, vertex_t_repr n ↔ n < 2^32) := by
  refine ⟨fun E => ?_, fun n => Iff.rfl, fun n => ?_⟩
  · unfold index_t_repr
    omega
  · unfold vertex_t_repr; omega

/-! ## List helper lemmas -/

/-- Writing inside the range is visible through `getD`. -/
theorem getD_set_self (L : List ℤ) (i : ℕ) (a : ℤ) (h : i < L.length) :
    (L.set i a).getD i 0 = a := by
  simp [List.getD_eq_getElem?_getD, List.getElem?_set_self, h]

/-- Writing one cell leaves the others unchanged. -/
theorem getD_set_ne (L : List ℤ) {i j : ℕ} (a : ℤ) (h : i ≠ j) :
    (L.set i a).getD j 0 = L.getD j 0 := by
  simp [List.getD_eq_getElem?_getD, List.getElem?_set_ne h]

/-- A cell holding the sentinel is inside the array. -/
theorem lt_length_of_getD_INFTY (L : List ℤ) (v : ℕ) (h : L.getD v 0 = INFTY) :
    v < L.length := by
  by_contra hv
  rw [List.getD_eq_default _ _ (le_of_not_lt hv)] at h
  exact absurd h (by simp [INFTY])

/-- Out-neighbor lists are segments of the CSR neighbor array. -/
theorem outNeighbors_subset (g : CSR) (u : ℕ) :
    ∀ x ∈ outNeighbors g u, x ∈ g.neighbors := by
  intro x hx
  unfold outNeighbors at hx
  exact List.drop_subset _ _ (List.take_subset _ _ hx)

/-! ## Characterization of the claim scan (top-down stepper) -/

theorem claimList_length (lvl : ℤ) :
    ∀ (cs : List ℕ) (L : List ℤ) (nf : List ℕ),
      (claimList lvl cs L nf).1.length = L.length := by
  intro cs
  induction cs with
  | nil => intro L nf; rfl
  | cons c rest ih =>
    intro L nf
    unfold claimList
    by_cases hc : L.getD c 0 = INFTY
    · rw [if_pos hc, ih]; simp
    · rw [if_neg hc, ih]

theorem claimList_getD (lvl : ℤ) (hlvl : lvl ≠ INFTY) :
    ∀ (cs : List ℕ) (L : List ℤ) (nf : List ℕ) (v : ℕ),
      (claimList lvl cs L nf).1.getD v 0 =
        if v ∈ cs ∧ L.getD v 0 = INFTY then lvl else L.getD v 0 := by
  intro cs
  induction cs with
  | nil => intro L nf v; simp [claimList]
  | cons c rest ih =>
    intro L nf v
    unfold claimList
    by_cases hc : L.getD c 0 = INFTY
    · rw [if_pos hc, ih]
      by_cases hvc : v = c
      · subst hvc
        have hvlt : v < L.length := lt_length_of_getD_INFTY L v hc
        have hset : (L.set v lvl).getD v 0 = lvl := getD_set_self L v lvl hvlt
        rw [hset, if_neg (fun hcontra => hlvl hcontra.2)]
        rw [if_pos ⟨List.mem_cons_self v rest, hc⟩]
      · have hset : (L.set c lvl).getD v 0 = L.getD v 0 :=
          getD_set_ne L lvl (Ne.symm hvc)
        rw [hset]
        by_cases hm : v ∈ rest
        · simp only [List.mem_cons, hvc, false_or, hm]
        · simp only [List.mem_cons, hvc, false_or, hm]
    · rw [if_neg hc, ih]
      by_cases hvc : v = c
      · subst hvc
        rw [if_neg (fun hcontra => hc hcontra.2), if_neg (fun hcontra => hc hcontra.2)]
      · simp only [List.mem_cons, hvc, false_or]

theorem claimList_mem (lvl : ℤ) :
    ∀ (cs : List ℕ) (L : List ℤ) (nf : List ℕ) (x : ℕ),
      (x ∈ (claimList lvl cs L nf).2 ↔
        x ∈ nf ∨ (x ∈ cs ∧ L.getD x 0 = INFTY)) := by
  intro cs
  induction cs with
  | nil => intro L nf x; simp [claimList]
  | cons c rest ih =>
    intro L nf x
    unfold claimList
    by_cases hc : L.getD c 0 = INFTY
    · rw [if_pos hc, ih]
      by_cases hxc : x = c
      · subst hxc
        constructor
        · intro _
          exact Or.inr ⟨List.mem_cons_self x rest, hc⟩
        · intro _
          exact Or.inl (List.mem_append.mpr (Or.inr (List.mem_singleton.mpr rfl)))
      · have hset : (L.set c lvl).getD x 0 = L.getD x 0 :=
          getD_set_ne L lvl (Ne.symm hxc)
        rw [hset]
        simp [List.mem_append, List.mem_cons, hxc]
    · rw [if_neg hc, ih]
      by_cases hxc : x = c
      · subst hxc
        constructor
        · intro h
          rcases h with h | h
          · exact Or.inl h
          · exact absurd h.2 hc
        · intro h
          rcases h with h | h
          · exact Or.inl h
          · exact absurd h.2 hc
      · simp [List.mem_cons, hxc]

/-! ## Characterization of the bottom-up scan -/

theorem buScan_length (gin : CSR) (lvl : ℤ) (L0 : List ℤ) (F : List ℕ) :
    ∀ (vs : List ℕ) (p : List ℤ × List ℕ),
      (buScan gin lvl L0 F vs p).1.length = p.1.length := by
  intro vs
  induction vs with
  | nil => intro p; rfl
  | cons v0 rest ih =>
    intro p
    unfold buScan
    by_cases h0 : L0.getD v0 0 = INFTY ∧
        (outNeighbors gin v0).any (fun u => decide (u ∈ F)) = true
    · rw [if_pos h0, ih]; simp
    · rw [if_neg h0, ih]

theorem buScan_fst (gin : CSR) (lvl : ℤ) (L0 : List ℤ) (F : List ℕ) :
    ∀ (vs : List ℕ) (accL : List ℤ) (accF : List ℕ) (v : ℕ),
      accL.length = L0.length →
      (buScan gin lvl L0 F vs (accL, accF)).1.getD v 0 =
        if v ∈ vs ∧ (L0.getD v 0 = INFTY ∧
            (outNeighbors gin v).any (fun u => decide (u ∈ F)) = true)
        then lvl else accL.getD v 0 := by
  intro vs
  induction vs with
  | nil => intro accL accF v _; simp [buScan]
  | cons v0 rest ih =>
    intro accL accF v hacc
    unfold buScan
    by_cases h0 : L0.getD v0 0 = INFTY ∧
        (outNeighbors gin v0).any (fun u => decide (u ∈ F)) = true
    · rw [if_pos h0]
      have hlen : (accL.set v0 lvl).length = L0.length := by simp [hacc]
      rw [ih (accL.set v0 lvl) (accF ++ [v0]) v hlen]
      by_cases hv : v = v0
      · subst hv
        have hvlt : v < accL.length := by
          rw [hacc]; exact lt_length_of_getD_INFTY L0 v h0.1
        by_cases hin : v ∈ rest
        · rw [if_pos ⟨hin, h0⟩, if_pos ⟨List.mem_cons_self v rest, h0⟩]
        · rw [if_neg (fun hcontra => hin hcontra.1), getD_set_self accL v lvl hvlt,
            if_pos ⟨List.mem_cons_self v rest, h0⟩]
      · have hset : (accL.set v0 lvl).getD v 0 = accL.getD v 0 :=
          getD_set_ne accL lvl (Ne.symm hv)
        rw [hset]
        simp only [List.mem_cons, hv, false_or]
    · rw [if_neg h0]
      rw [ih accL accF v hacc]
      by_cases hv : v = v0
      · subst hv
        rw [if_neg (fun hcontra => h0 hcontra.2),
          if_neg (fun hcontra => h0 hcontra.2)]
      · simp only [List.mem_cons, hv, false_or]

theorem buScan_snd (gin : CSR) (lvl : ℤ) (L0 : List ℤ) (F : List ℕ) :
    ∀ (vs : List ℕ) (accL : List ℤ) (accF : List ℕ) (x : ℕ),
      (x ∈ (buScan gin lvl L0 F vs (accL, accF)).2 ↔
        x ∈ accF ∨ (x ∈ vs ∧ (L0.getD x 0 = INFTY ∧
          (outNeighbors gin x).any (fun u => decide (u ∈ F)) = true))) := by
  intro vs
  induction vs with
  | nil => intro accL accF x; simp [buScan]
  | cons v0 rest ih =>
    intro accL accF x
    unfold buScan
    by_cases h0 : L0.getD v0 0 = INFTY ∧
        (outNeighbors gin v0).any (fun u => decide (u ∈ F)) = true
    · rw [if_pos h0, ih]
      by_cases hx : x = v0
      · subst hx
        constructor
        · intro _
          exact Or.inr ⟨List.mem_cons_self x rest, h0⟩
        · intro _
          exact Or.inl (List.mem_append.mpr (Or.inr (List.mem_singleton.mpr rfl)))
      · simp [List.mem_append, List.mem_cons, hx]
    · rw [if_neg h0, ih]
      by_cases hx : x = v0
      · subst hx
        constructor
        · intro h
          rcases h with h | h
          · exact Or.inl h
          · exact Or.inr ⟨List.mem_cons_self x rest, h.2⟩
        · intro h
          rcases h with h | h
          · exact Or.inl h
          · exact absurd h.2 h0
      · simp [List.mem_cons, hx]

/-! ## Reachability lemmas -/

theorem adjB_iff (g : CSR) (u v : ℕ) : adjB g u v = true ↔ v ∈ outNeighbors g u := by
  simp [adjB]

theorem anyMem_iff (gin : CSR) (F : List ℕ) (v : ℕ) :
    (outNeighbors gin v).any (fun u => decide (u ∈ F)) = true ↔
      ∃ u, u ∈ F ∧ adjB gin v u = true := by
  rw [List.any_eq_true]
  constructor
  · rintro ⟨u, hu1, hu2⟩
    exact ⟨u, of_decide_eq_true hu2, (adjB_iff gin v u).mpr hu1⟩
  · rintro ⟨u, hu1, hu2⟩
    exact ⟨u, (adjB_iff gin v u).mp hu2, decide_eq_true hu1⟩

/-- Every vertex reachable from a valid source is a valid vertex. -/
theorem ReachN_lt_V (g : CSR) (s : ℕ) (hwf : CSRwf g) (hs : s < g.V) :
    ∀ {d v : ℕ}, ReachN g s d v → v < g.V := by
  intro d v h
  induction h with
  | zero => exact hs
  | succ _ hadj _ =>
    rename_i u v _ _
    exact hwf.2.2.2 v (outNeighbors_subset g u v ((adjB_iff g u v).mp hadj))

theorem ReachN_zero_iff (g : CSR) (s v : ℕ) : ReachN g s 0 v ↔ v = s := by
  constructor
  · intro h
    cases h
    rfl
  · intro h
    subst h
    exact ReachN.zero

theorem ReachN_succ_iff (g : CSR) (s : ℕ) (k v : ℕ) :
    ReachN g s (k + 1) v ↔ ∃ u, ReachN g s k u ∧ adjB g u v = true := by
  constructor
  · intro h
    cases h with
    | succ hu hadj => exact ⟨_, hu, hadj⟩
  · rintro ⟨u, hu, hadj⟩
    exact ReachN.succ hu hadj

/-- Shortest distances are unique. -/
theorem ShortestD_unique (g : CSR) (s v d d' : ℕ)
    (h1 : ShortestD g s v d) (h2 : ShortestD g s v d') : d = d' := by
  rcases lt_trichotomy d d' with h | h | h
  · exact absurd h1.1 (h2.2 d h)
  · exact h
  · exact absurd h2.1 (h1.2 d' h)

/-- Every reachable vertex has a shortest distance. -/
theorem ShortestD_exists (g : CSR) (s v : ℕ) :
    ∀ d : ℕ, ReachN g s d v → ∃ e, e ≤ d ∧ ShortestD g s v e := by
  intro d
  induction d using Nat.strong_induction_on with
  | _ d ih =>
    intro h
    by_cases hmin : ∀ e < d, ¬ ReachN g s e v
    · exact ⟨d, le_refl d, h, hmin⟩
    · push_neg at hmin
      rcases hmin with ⟨e, he, hre⟩
      rcases ih e he hre with ⟨e', he', hsd⟩
      exact ⟨e', le_of_lt (lt_of_le_of_lt he' he), hsd⟩

theorem reachIn_succ_iff (g : CSR) (s k v : ℕ) :
    reachIn g s (k + 1) v ↔ reachIn g s k v ∨ ShortestD g s v (k + 1) := by
  constructor
  · rintro ⟨d, hd, hr⟩
    rcases ShortestD_exists g s v d hr with ⟨e, hed, hsd⟩
    by_cases hek : e ≤ k
    · exact Or.inl ⟨e, hek, hsd.1⟩
    · have : e = k + 1 := by omega
      subst this
      exact Or.inr hsd
  · rintro (⟨d, hd, hr⟩ | hsd)
    · exact ⟨d, by omega, hr⟩
    · exact ⟨k + 1, le_refl _, hsd.1⟩

theorem reachIn_zero_iff (g : CSR) (s v : ℕ) : reachIn g s 0 v ↔ v = s := by
  constructor
  · rintro ⟨d, hd, hr⟩
    have : d = 0 := Nat.le_zero.mp hd
    subst this
    exact (ReachN_zero_iff g s v).mp hr
  · intro h
    exact ⟨0, le_refl 0, (ReachN_zero_iff g s v).mpr h⟩

theorem ShortestD_zero_iff (g : CSR) (s v : ℕ) : ShortestD g s v 0 ↔ v = s := by
  constructor
  · intro h
    exact (ReachN_zero_iff g s v).mp h.1
  · intro h
    subst h
    exact ⟨ReachN.zero, fun e he => absurd he (Nat.not_lt_zero e)⟩

/-! ## The reachable-set saturation and the distance bound -/

theorem mem_stepSet (g : CSR) (X : Finset ℕ) (v : ℕ) :
    v ∈ stepSet g X ↔ v ∈ X ∨ ∃ u ∈ X, v ∈ outNeighbors g u := by
  simp [stepSet]

theorem reachIn_succ_iff_adj (g : CSR) (s k v : ℕ) :
    reachIn g s (k + 1) v ↔
      reachIn g s k v ∨ ∃ u, reachIn g s k u ∧ adjB g u v = true := by
  constructor
  · rintro ⟨d, hd, hr⟩
    by_cases hdk : d ≤ k
    · exact Or.inl ⟨d, hdk, hr⟩
    · have : d = k + 1 := by omega
      subst this
      rcases (ReachN_succ_iff g s k v).mp hr with ⟨u, hu, hadj⟩
      exact Or.inr ⟨u, ⟨k, le_refl k, hu⟩, hadj⟩
  · rintro (⟨d, hd, hr⟩ | ⟨u, ⟨e, he, hu⟩, hadj⟩)
    · exact ⟨d, by omega, hr⟩
    · exact ⟨e + 1, by omega, ReachN.succ hu hadj⟩

theorem mem_iterSet (g : CSR) (s : ℕ) :
    ∀ (k v : ℕ), v ∈ iterSet g s k ↔ reachIn g s k v := by
  intro k
  induction k with
  | zero =>
    intro v
    simp only [iterSet, Finset.mem_singleton]
    exact (reachIn_zero_iff g s v).symm
  | succ k ih =>
    intro v
    rw [iterSet, mem_stepSet, reachIn_succ_iff_adj]
    constructor
    · rintro (h | ⟨u, hu, hout⟩)
      · exact Or.inl ((ih v).mp h)
      · exact Or.inr ⟨u, (ih u).mp hu, (adjB_iff g u v).mpr hout⟩
    · rintro (h | ⟨u, hu, hadj⟩)
      · exact Or.inl ((ih v).mpr h)
      · exact Or.inr ⟨u, (ih u).mpr hu, (adjB_iff g u v).mp hadj⟩

theorem iterSet_subset_range (g : CSR) (s : ℕ) (hwf : CSRwf g) (hs : s < g.V) :
    ∀ k, iterSet g s k ⊆ Finset.range g.V := by
  intro k x hx
  rcases (mem_iterSet g s k x).mp hx with ⟨d, _, hr⟩
  exact Finset.mem_range.mpr (ReachN_lt_V g s hwf hs hr)

theorem iterSet_mono (g : CSR) (s k : ℕ) : iterSet g s k ⊆ iterSet g s (k + 1) := by
  intro x hx
  rw [iterSet]
  exact Finset.mem_union_left _ hx

theorem iterSet_stab (g : CSR) (s k : ℕ)
    (h : iterSet g s k = iterSet g s (k + 1)) :
    ∀ m, k ≤ m → iterSet g s m = iterSet g s k := by
  intro m hm
  induction m, hm using Nat.le_induction with
  | base => rfl
  | succ m hkm ih =>
    have hm : iterSet g s m = iterSet g s k := ih
    calc iterSet g s (m + 1) = stepSet g (iterSet g s m) := rfl
      _ = stepSet g (iterSet g s k) := by rw [hm]
      _ = iterSet g s (k + 1) := rfl
      _ = iterSet g s k := h.symm

theorem exists_iterSet_stab (g : CSR) (s : ℕ) (hwf : CSRwf g) (hs : s < g.V) :
    ∃ j < g.V, iterSet g s j = iterSet g s (j + 1) := by
  by_contra hcon
  push_neg at hcon
  have grow : ∀ j, j ≤ g.V → j + 1 ≤ (iterSet g s j).card := by
    intro j
    induction j with
    | zero =>
      intro _
      simp [iterSet]
    | succ j ih =>
      intro hj
      have hlt : j < g.V := by omega
      have hne : iterSet g s j ≠ iterSet g s (j + 1) := hcon j hlt
      have hss : iterSet g s j ⊂ iterSet g s (j + 1) :=
        ⟨iterSet_mono g s j, fun hsub => hne (le_antisymm (iterSet_mono g s j) hsub)⟩
      have hcard := Finset.card_lt_card hss
      have := ih (by omega)
      omega
  have h1 : g.V + 1 ≤ (iterSet g s g.V).card := grow g.V (le_refl _)
  have h2 : (iterSet g s g.V).card ≤ g.V := by
    have := Finset.card_le_card (iterSet_subset_range g s hwf hs g.V)
    simpa using this
  omega

/-- The shortest distance of any reachable vertex is below the vertex count. -/
theorem ShortestD_lt_V (g : CSR) (s v d : ℕ) (hwf : CSRwf g) (hs : s < g.V)
    (h : ShortestD g s v d) : d < g.V := by
  rcases exists_iterSet_stab g s hwf hs with ⟨j, hj, hstab⟩
  by_cases hdj : d ≤ j
  · omega
  · have hjd : j ≤ d := by omega
    have : iterSet g s d = iterSet g s j := iterSet_stab g s j hstab d hjd
    have hv : v ∈ iterSet g s d :=
      (mem_iterSet g s d v).mpr ⟨d, le_refl d, h.1⟩
    rw [this] at hv
    rcases (mem_iterSet g s j v).mp hv with ⟨e, hej, hre⟩
    have : d ≤ e := by
      by_contra hde
      exact (h.2 e (by omega)) hre
    omega

/-! ## The per-level invariant of the engine -/

/-- The set a level step claims — unvisited vertices with a frontier
in-neighbor — is exactly the set of vertices at shortest distance `k + 1`. -/
theorem claimed_iff_ShortestD (gout : CSR) (src k : ℕ) (hwf : CSRwf gout)
    (hs : src < gout.V) (L : List ℤ) (F : List ℕ)
    (h2 : ∀ v, L.getD v 0 = INFTY ↔ (v < gout.V ∧ ¬ reachIn gout src k v))
    (h3 : ∀ v, v ∈ F ↔ ShortestD gout src v k) (v : ℕ) :
    (L.getD v 0 = INFTY ∧ ∃ u, u ∈ F ∧ adjB gout u v = true) ↔
      ShortestD gout src v (k + 1) := by
  constructor
  · rintro ⟨hinf, u, huF, hadj⟩
    have hSDu := (h3 u).mp huF
    refine ⟨ReachN.succ hSDu.1 hadj, ?_⟩
    intro e he hre
    exact ((h2 v).mp hinf).2 ⟨e, by omega, hre⟩
  · intro hSD
    rcases (ReachN_succ_iff gout src k v).mp hSD.1 with ⟨u, hu, hadj⟩
    rcases ShortestD_exists gout src u k hu with ⟨e, hek, hsdu⟩
    have heq : e = k := by
      by_contra hne
      exact hSD.2 (e + 1) (by omega) (ReachN.succ hsdu.1 hadj)
    subst heq
    refine ⟨(h2 v).mpr ⟨ReachN_lt_V gout src hwf hs hSD.1, ?_⟩,
      u, (h3 u).mpr hsdu, hadj⟩
    rintro ⟨d, hd, hrd⟩
    exact hSD.2 d (by omega) hrd

/-- Propagation of the four-part invariant across one level, for any step
whose claimed set is characterized by a predicate `Cond` equivalent to
"shortest distance `k + 1`". -/
theorem inv_step (gout : CSR) (src k : ℕ)
    (L L' : List ℤ) (F' : List ℕ) (Cond : ℕ → Prop)
    (hlen : L.length = gout.V)
    (h1 : ∀ v d, ShortestD gout src v d → d ≤ k → L.getD v 0 = (d : ℤ))
    (h2 : ∀ v, L.getD v 0 = INFTY ↔ (v < gout.V ∧ ¬ reachIn gout src k v))
    (hCond : ∀ v, Cond v ↔ ShortestD gout src v (k + 1))
    (hLpos : ∀ v, Cond v → L'.getD v 0 = (k : ℤ) + 1)
    (hLneg : ∀ v, ¬ Cond v → L'.getD v 0 = L.getD v 0)
    (hF : ∀ v, v ∈ F' ↔ Cond v)
    (hlen' : L'.length = L.length) :
    L'.length = gout.V ∧
    (∀ v d, ShortestD gout src v d → d ≤ k + 1 → L'.getD v 0 = (d : ℤ)) ∧
    (∀ v, L'.getD v 0 = INFTY ↔ (v < gout.V ∧ ¬ reachIn gout src (k + 1) v)) ∧
    (∀ v, v ∈ F' ↔ ShortestD gout src v (k + 1)) := by
  refine ⟨hlen'.trans hlen, ?_, ?_, ?_⟩
  · intro v d hSD hdle
    by_cases hdk : d ≤ k
    · have hnc : ¬ Cond v := by
        intro hc
        have := ShortestD_unique gout src v d (k + 1) hSD ((hCond v).mp hc)
        omega
      rw [hLneg v hnc]
      exact h1 v d hSD hdk
    · have hdek : d = k + 1 := by omega
      subst hdek
      rw [hLpos v ((hCond v).mpr hSD)]
      push_cast
      ring
  · intro v
    by_cases hc : Cond v
    · rw [hLpos v hc]
      apply iff_of_false
      · intro habs
        unfold INFTY at habs
        omega
      · rintro ⟨_, hnr⟩
        exact hnr ⟨k + 1, le_refl _, ((hCond v).mp hc).1⟩
    · rw [hLneg v hc, h2 v]
      constructor
      · rintro ⟨hvlt, hnr⟩
        refine ⟨hvlt, ?_⟩
        intro hri
        rcases (reachIn_succ_iff gout src k v).mp hri with h | h
        · exact hnr h
        · exact hc ((hCond v).mpr h)
      · rintro ⟨hvlt, hnr⟩
        exact ⟨hvlt, fun hri =>
          hnr ((reachIn_succ_iff gout src k v).mpr (Or.inl hri))⟩
  · intro v
    rw [hF v, hCond v]

theorem getD_init (V src v : ℕ) (hs : src < V) :
    ((List.replicate V INFTY).set src 0).getD v 0 =
      if v = src then 0 else if v < V then INFTY else 0 := by
  by_cases hv : v = src
  · subst hv
    rw [if_pos rfl]
    exact getD_set_self _ _ _ (by simpa using hs)
  · rw [if_neg hv, getD_set_ne _ _ (fun h => hv h.symm)]
    by_cases hlt : v < V
    · rw [if_pos hlt]
      simp [List.getD_eq_getElem?_getD, List.getElem?_replicate, hlt]
    · rw [if_neg hlt]
      exact List.getD_eq_default _ _ (by simpa using Nat.le_of_not_lt hlt)

theorem levelStep_TD (ch : Strategy → ℕ → ℚ → Strategy) (gout gin : CSR)
    (k : ℕ) (st : BfsState)
    (hch : ch st.dir st.frontier.length
      (ratioDE (degreeSum gout st.frontier) gout.neighbors.length) = .TOP_DOWN) :
    levelStep ch gout gin k st =
      ⟨(topDownStep gout ((k : ℤ) + 1) st.level st.frontier).1,
       (topDownStep gout ((k : ℤ) + 1) st.level st.frontier).2, .TOP_DOWN⟩ := by
  unfold levelStep
  rw [hch]

theorem levelStep_BU (ch : Strategy → ℕ → ℚ → Strategy) (gout gin : CSR)
    (k : ℕ) (st : BfsState)
    (hch : ch st.dir st.frontier.length
      (ratioDE (degreeSum gout st.frontier) gout.neighbors.length) = .BOTTOM_UP) :
    levelStep ch gout gin k st =
      ⟨(bottomUpStep gin ((k : ℤ) + 1) st.level st.frontier).1,
       (bottomUpStep gin ((k : ℤ) + 1) st.level st.frontier).2, .BOTTOM_UP⟩ := by
  unfold levelStep
  rw [hch]

/-- The four-part invariant: after the engine has processed levels
`0, ..., k-1` — regardless of which strategy the chooser picked at each
level — the level array holds the shortest distance of every vertex at
distance `≤ k`, holds `INFTY` exactly on the in-range vertices not reachable
within `k` steps, and the frontier is exactly the set of vertices at
shortest distance `k`. -/
theorem engine_invariant (ch : Strategy → ℕ → ℚ → Strategy) (gout gin : CSR)
    (src : ℕ) (hwf : CSRwf gout) (hs : src < gout.V) (hV : gin.V = gout.V)
    (hrev : ∀ u, u < gout.V → ∀ v, v < gout.V → adjB gout u v = adjB gin v u) :
    ∀ k,
      (engineRun ch gout gin src k).level.length = gout.V ∧
      (∀ v d, ShortestD gout src v d → d ≤ k →
        (engineRun ch gout gin src k).level.getD v 0 = (d : ℤ)) ∧
      (∀ v, (engineRun ch gout gin src k).level.getD v 0 = INFTY ↔
        (v < gout.V ∧ ¬ reachIn gout src k v)) ∧
      (∀ v, v ∈ (engineRun ch gout gin src k).frontier ↔
        ShortestD gout src v k) := by
  intro k
  induction k with
  | zero =>
    refine ⟨by simp [engineRun], ?_, ?_, ?_⟩
    · intro v d hSD hd
      have hd0 : d = 0 := by omega
      subst hd0
      have hv : v = src := (ShortestD_zero_iff gout src v).mp hSD
      have hL : (engineRun ch gout gin src 0).level =
          (List.replicate gout.V INFTY).set src 0 := rfl
      rw [hL, getD_init gout.V src v hs, if_pos hv]
      rfl
    · intro v
      have hL : (engineRun ch gout gin src 0).level =
          (List.replicate gout.V INFTY).set src 0 := rfl
      rw [hL, getD_init gout.V src v hs]
      by_cases hv : v = src
      · rw [if_pos hv]
        apply iff_of_false
        · intro h
          unfold INFTY at h
          omega
        · rintro ⟨_, hnr⟩
          exact hnr ((reachIn_zero_iff gout src v).mpr hv)
      · rw [if_neg hv]
        by_cases hlt : v < gout.V
        · rw [if_pos hlt]
          exact iff_of_true rfl
            ⟨hlt, fun hri => hv ((reachIn_zero_iff gout src v).mp hri)⟩
        · rw [if_neg hlt]
          apply iff_of_false
          · intro h
            unfold INFTY at h
            omega
          · rintro ⟨h, _⟩
            exact hlt h
    · intro v
      have hF : (engineRun ch gout gin src 0).frontier = [src] := rfl
      rw [hF, List.mem_singleton, ShortestD_zero_iff]
  | succ k ih =>
    obtain ⟨ihlen, ih1, ih2, ih3⟩ := ih
    have hlvl : ((k : ℤ) + 1) ≠ INFTY := by
      unfold INFTY
      omega
    cases hch : ch (engineRun ch gout gin src k).dir
        (engineRun ch gout gin src k).frontier.length
        (ratioDE (degreeSum gout (engineRun ch gout gin src k).frontier)
          gout.neighbors.length) with
    | TOP_DOWN =>
      have hstate : engineRun ch gout gin src (k + 1) =
          ⟨(topDownStep gout ((k : ℤ) + 1) (engineRun ch gout gin src k).level
              (engineRun ch gout gin src k).frontier).1,
           (topDownStep gout ((k : ℤ) + 1) (engineRun ch gout gin src k).level
              (engineRun ch gout gin src k).frontier).2, .TOP_DOWN⟩ :=
        levelStep_TD ch gout gin k (engineRun ch gout gin src k) hch
      rw [hstate]
      have hCond : ∀ v,
          (v ∈ (engineRun ch gout gin src k).frontier.flatMap (outNeighbors gout) ∧
            (engineRun ch gout gin src k).level.getD v 0 = INFTY) ↔
          ShortestD gout src v (k + 1) := by
        intro v
        have hcore := claimed_iff_ShortestD gout src k hwf hs
          (engineRun ch gout gin src k).level (engineRun ch gout gin src k).frontier
          ih2 ih3 v
        constructor
        · rintro ⟨hmem, hinf⟩
          rcases List.mem_flatMap.mp hmem with ⟨u, huF, hout⟩
          exact hcore.mp ⟨hinf, u, huF, (adjB_iff gout u v).mpr hout⟩
        · intro hSD
          rcases hcore.mpr hSD with ⟨hinf, u, huF, hadj⟩
          exact ⟨List.mem_flatMap.mpr ⟨u, huF, (adjB_iff gout u v).mp hadj⟩, hinf⟩
      refine inv_step gout src k (engineRun ch gout gin src k).level _ _ _
        ihlen ih1 ih2 hCond ?_ ?_ ?_ ?_
      · intro v hc
        unfold topDownStep
        rw [claimList_getD _ hlvl, if_pos hc]
      · intro v hc
        unfold topDownStep
        rw [claimList_getD _ hlvl, if_neg hc]
      · intro v
        unfold topDownStep
        rw [claimList_mem]
        simp only [List.not_mem_nil, false_or]
      · unfold topDownStep
        exact claimList_length _ _ _ _
    | BOTTOM_UP =>
      have hstate : engineRun ch gout gin src (k + 1) =
          ⟨(bottomUpStep gin ((k : ℤ) + 1) (engineRun ch gout gin src k).level
              (engineRun ch gout gin src k).frontier).1,
           (bottomUpStep gin ((k : ℤ) + 1) (engineRun ch gout gin src k).level
              (engineRun ch gout gin src k).frontier).2, .BOTTOM_UP⟩ :=
        levelStep_BU ch gout gin k (engineRun ch gout gin src k) hch
      rw [hstate]
      have hCond : ∀ v,
          (v ∈ List.range gin.V ∧
            ((engineRun ch gout gin src k).level.getD v 0 = INFTY ∧
              (outNeighbors gin v).any
                (fun u => decide (u ∈ (engineRun ch gout gin src k).frontier)) = true)) ↔
          ShortestD gout src v (k + 1) := by
        intro v
        have hcore := claimed_iff_ShortestD gout src k hwf hs
          (engineRun ch gout gin src k).level (engineRun ch gout gin src k).frontier
          ih2 ih3 v
        constructor
        · rintro ⟨hrange, hinf, hany⟩
          rcases (anyMem_iff gin (engineRun ch gout gin src k).frontier v).mp hany
            with ⟨u, huF, hadj_in⟩
          have hu : u < gout.V :=
            ReachN_lt_V gout src hwf hs ((ih3 u).mp huF).1
          have hv : v < gout.V := by
            have := List.mem_range.mp hrange
            omega
          have hadj_out : adjB gout u v = true := by
            rw [hrev u hu v hv]
            exact hadj_in
          exact hcore.mp ⟨hinf, u, huF, hadj_out⟩
        · intro hSD
          rcases hcore.mpr hSD with ⟨hinf, u, huF, hadj_out⟩
          have hu : u < gout.V :=
            ReachN_lt_V gout src hwf hs ((ih3 u).mp huF).1
          have hv : v < gout.V := ReachN_lt_V gout src hwf hs hSD.1
          have hadj_in : adjB gin v u = true := by
            rw [← hrev u hu v hv]
            exact hadj_out
          refine ⟨List.mem_range.mpr (by omega), hinf, ?_⟩
          exact (anyMem_iff gin (engineRun ch gout gin src k).frontier v).mpr
            ⟨u, huF, hadj_in⟩
      refine inv_step gout src k (engineRun ch gout gin src k).level _ _ _
        ihlen ih1 ih2 hCond ?_ ?_ ?_ ?_
      · intro v hc
        unfold bottomUpStep
        rw [buScan_fst gin _ _ _ _ _ _ _ rfl, if_pos hc]
      · intro v hc
        unfold bottomUpStep
        rw [buScan_fst gin _ _ _ _ _ _ _ rfl, if_neg hc]
      · intro v
        unfold bottomUpStep
        rw [buScan_snd]
        simp only [List.not_mem_nil, false_or]
      · unfold bottomUpStep
        exact buScan_length _ _ _ _ _ _

/-! ## Claim C1: adaptive traversal computes shortest-path levels -/

/-- Claim C1: for every graph given as CSR out- and in-adjacency (the in-CSR
reversing the out-CSR) with a valid source, the level array produced by the
adaptive traversal assigns to every vertex reachable from the source a level
equal to the length (in edge count) of the shortest path from the source —
and it agrees with the reference serial BFS (forced top-down) on every such
vertex. -/
theorem adaptive_levels_shortest (gout gin : CSR) (src : ℕ)
    (hwf : CSRwf gout) (hs : src < gout.V) (hV : gin.V = gout.V)
    (hrev : ∀ u, u < gout.V → ∀ v, v < gout.V → adjB gout u v = adjB gin v u) :
    ∀ v d, ShortestD gout src v d →
      (adaptiveBFS gout gin src).getD v 0 = (d : ℤ) ∧
      (serialBFS gout gin src).getD v 0 = (d : ℤ) := by
  intro v d hSD
  have hd : d < gout.V := ShortestD_lt_V gout src v d hwf hs hSD
  constructor
  · exact (engine_invariant (selectStrategy shippedConfig) gout gin src
      hwf hs hV hrev gout.V).2.1 v d hSD (by omega)
  · exact (engine_invariant (fun _ _ _ => .TOP_DOWN) gout gin src
      hwf hs hV hrev gout.V).2.1 v d hSD (by omega)

/-- Witness for C1: on the two-vertex path `0 → 1` with source 0, both the
adaptive and the serial run assign vertex 1 the level 1 = its shortest
distance. -/
theorem adaptive_levels_shortest_w :
    (adaptiveBFS pathOut2 pathIn2 0).getD 1 0 = ((1 : ℕ) : ℤ) ∧
    (serialBFS pathOut2 pathIn2 0).getD 1 0 = ((1 : ℕ) : ℤ) :=
  adaptive_levels_shortest pathOut2 pathIn2 0 (by decide) (by decide) (by decide)
    (by decide) 1 1
    ⟨ReachN.succ ReachN.zero (by decide), by
      intro e he hr
      have he0 : e = 0 := by omega
      subst he0
      exact absurd ((ReachN_zero_iff pathOut2 0 1).mp hr) (by decide)⟩

/-! ## Claim C9: the INFTY sentinel -/

/-- Claim C9: the "unvisited" sentinel `INFTY` is the signed integer -1,
strictly less than every valid BFS level (levels are `≥ 0`); and at every
level of the adaptive traversal the predicate `level[v] = INFTY` holds
exactly for the in-range vertices not yet discovered, so it unambiguously
distinguishes undiscovered from discovered vertices at every point of the
traversal and in the final output. -/
theorem INFTY_sentinel_distinguishes (gout gin : CSR) (src : ℕ)
    (hwf : CSRwf gout) (hs : src < gout.V) (hV : gin.V = gout.V)
    (hrev : ∀ u, u < gout.V → ∀ v, v < gout.V → adjB gout u v = adjB gin v u) :
    INFTY = -1 ∧ (∀ l : ℤ, 0 ≤ l → INFTY < l) ∧
    (∀ k v,
      (engineRun (selectStrategy shippedConfig) gout gin src k).level.getD v 0 =
          INFTY ↔
        (v < gout.V ∧ ¬ reachIn gout src k v)) := by
  refine ⟨rfl, ?_, ?_⟩
  · intro l hl
    unfold INFTY
    omega
  · intro k v
    exact (engine_invariant (selectStrategy shippedConfig) gout gin src
      hwf hs hV hrev k).2.2.1 v

/-- Witness for C9: the sentinel characterization instantiated on the
two-vertex path `0 → 1` with source 0. -/
theorem INFTY_sentinel_distinguishes_w :
    INFTY = -1 ∧ (∀ l : ℤ, 0 ≤ l → INFTY < l) ∧
    (∀ k v,
      (engineRun (selectStrategy shippedConfig) pathOut2 pathIn2 0 k).level.getD v 0 =
          INFTY ↔
        (v < pathOut2.V ∧ ¬ reachIn pathOut2 0 k v)) :=
  INFTY_sentinel_distinguishes pathOut2 pathIn2 0 (by decide) (by decide)
    (by decide) (by decide)

/-! ## Claim C2: hysteresis of the strategy selector -/

/-- Counterexample for C2: with the shipped thresholds, the constant input
trace with frontier size 100 and ratio 1/4 — sitting inside
`[SWITCH_TO, SWITCH_BACK)` — makes the selector switch strategy at every one
of its 3 levels, while the ratio never crosses the hysteresis band; in
particular the switch count exceeds the band-crossing count. -/
theorem selector_flaps_on_constant_input :
    switchCount shippedConfig .TOP_DOWN
        [(100, (1 : ℚ)/4), (100, (1 : ℚ)/4), (100, (1 : ℚ)/4)] = 3 ∧
    bandCrossCount shippedConfig [(1 : ℚ)/4, (1 : ℚ)/4, (1 : ℚ)/4] = 0 ∧
    ¬ (switchCount shippedConfig .TOP_DOWN
          [(100, (1 : ℚ)/4), (100, (1 : ℚ)/4), (100, (1 : ℚ)/4)] ≤
        bandCrossCount shippedConfig [(1 : ℚ)/4, (1 : ℚ)/4, (1 : ℚ)/4]) := by
  norm_num [switchCount, selectStrategy, bandCrossCount, shippedConfig,
    SML_MID, MID_LRG, SWITCH_TO, SWITCH_BACK]
  decide

/-- Outside the overlap region, applying the selector twice with the same
input is the same as applying it once. -/
theorem selectStrategy_idem (F : ℕ) (r : ℚ)
    (h : ¬ (SML_MID ≤ F ∧ F < MID_LRG ∧ SWITCH_TO ≤ r ∧ r < SWITCH_BACK))
    (s : Strategy) :
    selectStrategy shippedConfig (selectStrategy shippedConfig s F r) F r =
      selectStrategy shippedConfig s F r := by
  cases s with
  | TOP_DOWN =>
    by_cases hc : shippedConfig.smlMid ≤ F ∧ shippedConfig.switchTo ≤ r
    · have hnc2 : ¬ (F < shippedConfig.midLrg ∧ r < shippedConfig.switchBack) := by
        intro hc2
        exact h ⟨hc.1, hc2.1, hc.2, hc2.2⟩
      simp only [selectStrategy, if_pos hc]
      rw [if_neg hnc2]
    · simp only [selectStrategy, if_neg hc]
  | BOTTOM_UP =>
    by_cases hc : F < shippedConfig.midLrg ∧ r < shippedConfig.switchBack
    · have hnc2 : ¬ (shippedConfig.smlMid ≤ F ∧ shippedConfig.switchTo ≤ r) := by
        intro hc2
        exact h ⟨hc2.1, hc.1, hc2.2, hc.2⟩
      simp only [selectStrategy, if_pos hc]
      rw [if_neg hnc2]
    · simp only [selectStrategy, if_neg hc]

/-- Once the selector is at a fixed point for a constant input, it never
switches again along that input. -/
theorem switchCount_fix (F : ℕ) (r : ℚ) :
    ∀ (m : ℕ) (s : Strategy), selectStrategy shippedConfig s F r = s →
      switchCount shippedConfig s (List.replicate m (F, r)) = 0 := by
  intro m
  induction m with
  | zero => intro s _; rfl
  | succ m ih =>
    intro s hsel
    rw [List.replicate_succ]
    show (if selectStrategy shippedConfig s F r = s then 0 else 1) +
      switchCount shippedConfig (selectStrategy shippedConfig s F r)
        (List.replicate m (F, r)) = 0
    rw [if_pos hsel, hsel, ih s hsel]

/-- Claim C2 (amended): the spec's transition rules do flap — a constant
input inside the overlap region `SML_MID ≤ F < MID_LRG`,
`SWITCH_TO ≤ r < SWITCH_BACK` switches strategy at every level (see the
counterexample) — but for every constant input outside that region the
selector switches at most once over a trace of any length. -/
theorem selector_no_flap_outside_overlap (F : ℕ) (r : ℚ) (s0 : Strategy) (n : ℕ)
    (h : ¬ (SML_MID ≤ F ∧ F < MID_LRG ∧ SWITCH_TO ≤ r ∧ r < SWITCH_BACK)) :
    switchCount shippedConfig s0 (List.replicate n (F, r)) ≤ 1 := by
  cases n with
  | zero => norm_num [switchCount]
  | succ n =>
    rw [List.replicate_succ]
    show (if selectStrategy shippedConfig s0 F r = s0 then 0 else 1) +
      switchCount shippedConfig (selectStrategy shippedConfig s0 F r)
        (List.replicate n (F, r)) ≤ 1
    by_cases hs : selectStrategy shippedConfig s0 F r = s0
    · rw [if_pos hs]
      have hfix : selectStrategy shippedConfig
          (selectStrategy shippedConfig s0 F r) F r =
          selectStrategy shippedConfig s0 F r := by
        rw [hs, hs]
      rw [switchCount_fix F r n _ hfix]
      norm_num
    · rw [if_neg hs]
      have hid := selectStrategy_idem F r h s0
      rw [switchCount_fix F r n _ hid]

/-- Witness for the amended C2: a constant trace with frontier size 10
(below `SML_MID`) causes at most one switch over 5 levels. -/
theorem selector_no_flap_outside_overlap_w :
    switchCount shippedConfig .TOP_DOWN
      (List.replicate 5 ((10 : ℕ), (1 : ℚ)/4)) ≤ 1 :=
  selector_no_flap_outside_overlap 10 ((1 : ℚ)/4) .TOP_DOWN 5
    (fun hc => absurd hc.1 (by decide))

/-! ## Claim C7: inconsistent configurations are fatal at startup -/

/-- Claim C7: an inconsistent configuration — `SWITCH_TO ≥ SWITCH_BACK` or
`BIN_SZ = 0` — is detected by the startup validation and is a fatal,
reported failure: the driver returns the configuration error and never a
level array, so no traversal level executes under such a configuration. -/
theorem invalid_config_rejected (c : Config) (gout gin : CSR) (src : ℕ)
    (h : c.switchBack ≤ c.switchTo ∨ c.binSz = 0) :
    runEngine c gout gin src = Except.error ("configuration error") ∧
    ∀ L, runEngine c gout gin src ≠ Except.ok L := by
  have hval : validateConfig c = false := by
    unfold validateConfig
    rcases h with h | h
    · simp [not_lt.mpr h]
    · simp [h]
  have herr : runEngine c gout gin src = Except.error ("configuration error") := by
    unfold runEngine
    rw [hval]
    rfl
  refine ⟨herr, ?_⟩
  intro L hL
  rw [herr] at hL
  exact Except.noConfusion hL

/-- Witness for C7: a configuration with `BIN_SZ = 0` is rejected before any
traversal of the two-vertex path executes. -/
theorem invalid_config_rejected_w :
    runEngine ⟨0, 512, 512, 32, 1024, 2/10, 4/10, 0⟩ pathOut2 pathIn2 0 =
      Except.error ("configuration error") :=
  (invalid_config_rejected ⟨0, 512, 512, 32, 1024, 2/10, 4/10, 0⟩
    pathOut2 pathIn2 0 (Or.inr rfl)).1

/-! ## Claim C8: binning divisions are well-defined -/

/-- Claim C8: with the shipped bin size `BIN_SZ = 8192` (nonzero), the
divisor of every division by the bin size in the binning computation is
positive, and the `BIN_SZ = 0` degraded branch is unreachable for every
graph and frontier. -/
theorem binning_division_welldefined (g : CSR) (F : List ℕ) :
    (assignBins shippedConfig g F).2 = false ∧
    shippedConfig.binSz = 8192 ∧ 0 < shippedConfig.binSz := by
  constructor
  · unfold assignBins
    rw [if_neg (by decide : ¬ shippedConfig.binSz = 0)]
  · exact ⟨rfl, by decide⟩
